import Mathlib

/-!
Verification development for a two-pipeline JSON log synchronizer.

The program lists objects in a remote storage bucket and maintains local
files.  Pipeline one (src/index.ts, entry point downloadAndSaveJSON)
incrementally downloads JSON objects that are newer than a watermark derived
from local filenames of the shape DD-MM-YYYY-S<n>.json.  Pipeline two
(src/unnamed/part_000, entry point processLogs) aggregates the objects whose
storage key contains today's YYYY/MM/DD fragment into one line-delimited
output file.

The embedding below models filenames and file contents as lists of
characters, instants as local-calendar fields plus milliseconds within the
day, and each pipeline run as a pure function from the remote object list
(and, for the sync pipeline, the local directory listing) to the list of
file writes it performs.  Numbers follow JavaScript behaviour where it
matters: dates are encoded as proleptic-Gregorian day counts exactly as the
multi-argument Date constructor normalizes its fields, and comparisons of
Date values become comparisons of those encodings (a fixed UTC offset is
assumed, so ordering and equality of local timestamps agree with their
millisecond values).
-/

/-- Decimal digit to character, as used by JavaScript number-to-string
conversion for the digits of a nonnegative integer. -/
def digitChar : Nat → Char
  | 0 => '0'
  | 1 => '1'
  | 2 => '2'
  | 3 => '3'
  | 4 => '4'
  | 5 => '5'
  | 6 => '6'
  | 7 => '7'
  | 8 => '8'
  | 9 => '9'
  | _ => '*'

/-- Numeric value of a decimal digit character. -/
def digitVal (c : Char) : Nat := c.toNat - 48

/-- Fuel-driven decimal rendering of a natural number (most significant digit
first).  The fuel only serves to make the recursion structural; decDigits
always supplies enough. -/
def decDigitsAux : Nat → Nat → List Char
  | 0, _ => []
  | fuel + 1, n => if n < 10 then [digitChar n] else decDigitsAux fuel (n / 10) ++ [digitChar (n % 10)]

/-- Decimal rendering of a natural number, the model of JavaScript
Number.prototype.toString on a nonnegative integer. -/
def decDigits (n : Nat) : List Char := decDigitsAux (n + 1) n

/-- Model of JavaScript String.prototype.padStart(2, "0") applied to the
decimal rendering of a natural number. -/
def pad2 (n : Nat) : List Char :=
  let s := decDigits n
  if 2 ≤ s.length then s else List.replicate (2 - s.length) '0' ++ s

/-- Value of a list of decimal digit characters, the model of parseInt on a
string of digits. -/
def parseDigits (l : List Char) : Nat := l.foldl (fun a c => 10 * a + digitVal c) 0

/-- Whitespace recognized by JavaScript String.prototype.trim (the ASCII
part, which is all the program ever meets). -/
def isJsWs (c : Char) : Bool :=
  c == ' ' || c == '\t' || c == '\n' || c == '\r' || c == '\x0b' || c == '\x0c'

/-- Model of String.prototype.trim. -/
def trimL (l : List Char) : List Char :=
  ((l.dropWhile isJsWs).reverse.dropWhile isJsWs).reverse

/-- Gregorian leap-year test, as implemented by the JavaScript Date type. -/
def isLeap (y : Nat) : Bool := (y % 4 == 0 && y % 100 != 0) || y % 400 == 0

/-- Days in the months before month m (1-based) of a year with the given
leap status. -/
def daysBeforeMonth (leap : Bool) (m : Nat) : Nat :=
  (match m with
   | 1 => 0
   | 2 => 31
   | 3 => 59
   | 4 => 90
   | 5 => 120
   | 6 => 151
   | 7 => 181
   | 8 => 212
   | 9 => 243
   | 10 => 273
   | 11 => 304
   | 12 => 334
   | _ => 0) + (if leap && 3 ≤ m then 1 else 0)

/-- Days from the start of proleptic-Gregorian year 0 to the start of year
y (all in Nat; the program only ever shifts years so that this stays
nonnegative). -/
def yearDays (y : Nat) : Nat :=
  365 * y + ((y + 3) / 4 + (y + 399) / 400 - (y + 99) / 100)

/-- Day-count encoding of the JavaScript expression
new Date(year, month - 1, day), including the constructor's quirks: a year
from 0 to 99 means 1900 + year, and out-of-range month and day fields roll
over into adjacent months and years exactly as the constructor normalizes
them.  Two such Date values compare (by getTime) the way their encodings
compare, and the encoding is shifted by a constant 400 years so that all
intermediate arithmetic stays in Nat (the Gregorian calendar is 400-year
periodic, so the shift preserves order, equality and day differences). -/
def dateValue (day month year : Nat) : Int :=
  let y := if year ≤ 99 then 1900 + year else year
  let yAdj : Nat := if month = 0 then y + 399 else y + 400 + (month - 1) / 12
  let mAdj : Nat := if month = 0 then 12 else (month - 1) % 12 + 1
  ((yearDays yAdj + daysBeforeMonth (isLeap yAdj) mAdj : Nat) : Int) + (day : Int) - 1

/-- A point in time as the program sees it: the local calendar fields that
getDate, getMonth and getFullYear report (month 1-based here), plus the
milliseconds elapsed since the local midnight of that calendar date. -/
structure Instant where
  year : Nat
  month : Nat
  day : Nat
  ms : Nat
deriving DecidableEq

/-- Millisecond encoding of an instant, the model of Date.prototype.getTime
under a fixed UTC offset (comparisons of getTime values are comparisons of
these). -/
def Instant.timeVal (i : Instant) : Int :=
  86400000 * dateValue i.day i.month i.year + i.ms

/-- An instant whose fields are genuine local-calendar output of a real
timestamp: calendar fields in range, a four-digit year and less than a day
of milliseconds. -/
def Instant.valid (i : Instant) : Prop :=
  1 ≤ i.month ∧ i.month ≤ 12 ∧ 1 ≤ i.day ∧ i.day ≤ 31 ∧
    1000 ≤ i.year ∧ i.year ≤ 9999 ∧ i.ms < 86400000

/-- A remote storage object: its key, its creation instant (metadata
timeCreated) and the result of downloading it (error when the download
throws). -/
structure RemoteObject where
  name : List Char
  created : Instant
  content : Except Unit (List Char)

/-- The characters of the extension ".json". -/
def jsonExt : List Char := ".json".data

/-- Attempt to match the regular expression
(\d\x7b2\x7d)-(\d\x7b2\x7d)-(\d\x7b4\x7d)-S(\d+)\.json at the head of the
character list, returning the captured day, month, year and sequence
values.  The digit run after S is taken greedily, which agrees with the
backtracking regex engine because the character after the run is never a
digit. -/
def matchAt : List Char → Option (Nat × Nat × Nat × Nat)
  | d1 :: d2 :: '-' :: m1 :: m2 :: '-' :: y1 :: y2 :: y3 :: y4 :: '-' :: 'S' :: rest =>
    if d1.isDigit && d2.isDigit && m1.isDigit && m2.isDigit &&
        y1.isDigit && y2.isDigit && y3.isDigit && y4.isDigit then
      let sp := rest.span Char.isDigit
      if sp.1.isEmpty then none
      else if jsonExt.isPrefixOf sp.2 then
        some (parseDigits [d1, d2], parseDigits [m1, m2],
          parseDigits [y1, y2, y3, y4], parseDigits sp.1)
      else none
    else none
  | _ => none

/-- Leftmost match of the sequence-file pattern anywhere in the list, the
model of String.prototype.match with an unanchored regex (earliest start
position wins). -/
def firstMatch : List Char → Option (Nat × Nat × Nat × Nat)
  | [] => none
  | c :: rest =>
    match matchAt (c :: rest) with
    | some r => some r
    | none => firstMatch rest

/-- The per-filename step of getLatestProcessedFile in src/index.ts: skip
names not ending in .json, match the DD-MM-YYYY-S<n>.json pattern anywhere
in the name, and return the captured fields. -/
def matchSeqFile (file : List Char) : Option (Nat × Nat × Nat × Nat) :=
  if jsonExt.isSuffixOf file then firstMatch file else none

/-- One iteration of the forEach loop in getLatestProcessedFile: a strictly
later date replaces both the date and the sequence; an equal date with a
strictly larger sequence replaces the sequence only. -/
def wmStep (st : Option Int × Int) (file : List Char) : Option Int × Int :=
  match matchSeqFile file with
  | none => st
  | some (day, month, year, seq) =>
    let date := dateValue day month year
    let s : Int := seq
    match st with
    | (none, _) => (some date, s)
    | (some ld, ls) =>
      if ld < date then (some date, s)
      else if date = ld ∧ ls < s then (some ld, s)
      else (some ld, ls)

/-- Model of getLatestProcessedFile in src/index.ts: fold the step over the
directory listing starting from no date and sequence -1, and return the
final (date, sequence) pair when a date was found. -/
def getLatestProcessedFile (dir : List (List Char)) : Option (Int × Int) :=
  match dir.foldl wmStep (none, -1) with
  | (none, _) => none
  | (some d, s) => some (d, s)

/-- Model of formatDate in src/index.ts: the local calendar date rendered as
DD-MM-YYYY with two-digit padded day and month. -/
def formatDate (i : Instant) : List Char :=
  pad2 i.day ++ '-' :: pad2 i.month ++ '-' :: decDigits i.year

/-- The filter of the download loop in src/index.ts: keep objects whose name
ends in .json and, when a watermark exists, whose creation time is strictly
later than the watermark date (a local midnight). -/
def isNewRemoteObject (wm : Option (Int × Int)) (o : RemoteObject) : Bool :=
  jsonExt.isSuffixOf o.name &&
    match wm with
    | none => true
    | some (d, _) => decide (86400000 * d < o.created.timeVal)

/-- Creation-time comparison used by the sort callback
(a, b) => a.created.getTime() - b.created.getTime(). -/
def createdLE (a b : RemoteObject) : Prop :=
  a.created.timeVal ≤ b.created.timeVal

instance : DecidableRel createdLE :=
  fun _ _ => inferInstanceAs (Decidable (_ ≤ _))

/-- Model of Array.prototype.sort with the creation-time comparator: the
specified observable behaviour is a stable sort by creation time, which the
stable insertion sort realizes uniquely. -/
def sortByCreated (l : List RemoteObject) : List RemoteObject :=
  List.insertionSort createdLE l

/-- The keys of the filesByDate Map in insertion order: each object of the
(sorted) list contributes its formatted date when first seen. -/
def groupKeys (l : List RemoteObject) : List (List Char) :=
  l.foldl (fun acc o => if formatDate o.created ∈ acc then acc else acc ++ [formatDate o.created]) []

/-- The filesByDate Map as an association list in key-insertion order; the
group of a key holds the objects with that formatted date in list order,
exactly as the forEach loop pushes them. -/
def groupsOf (l : List RemoteObject) : List (List Char × List RemoteObject) :=
  (groupKeys l).map fun k => (k, l.filter (fun o => formatDate o.created = k))

/-- The output filename template of src/index.ts, dateStr-S<i>.json. -/
def seqFileName (dateStr : List Char) (i : Nat) : List Char :=
  dateStr ++ '-' :: 'S' :: decDigits i ++ jsonExt

/-- The inner loop of downloadAndSaveJSON over one date group: index i runs
over all objects of the group; a failed download (the catch branch) or
empty trimmed content produces no write, otherwise the trimmed content is
written to dateStr-S<i>.json. -/
def processGroup (dateStr : List Char) (g : List RemoteObject) : List (List Char × List Char) :=
  g.enum.filterMap fun p =>
    match p.2.content with
    | .error _ => none
    | .ok raw =>
      let t := trimL raw
      if t.isEmpty then none else some (seqFileName dateStr p.1, t)

/-- Model of downloadAndSaveJSON in src/index.ts as the list of file writes
(filename, content) one run performs, given the local directory listing and
the bucket's objects: resolve the watermark, filter to new .json objects,
sort by creation time, group by formatted date, then process each group. -/
def downloadAndSaveJSON (dir : List (List Char)) (objs : List RemoteObject) :
    List (List Char × List Char) :=
  let wm := getLatestProcessedFile dir
  let sorted := sortByCreated (objs.filter (isNewRemoteObject wm))
  (groupsOf sorted).flatMap fun p => processGroup p.1 p.2

/-- JSON values as the tagged union the program manipulates (objects keep
field insertion order, which both JSON.parse and JSON.stringify preserve).
Numeric fidelity is restricted to integers, the only numerals the program's
inputs in scope contain. -/
inductive Json where
  | null
  | bool (b : Bool)
  | num (n : Int)
  | str (s : List Char)
  | arr (elems : List Json)
  | obj (fields : List (List Char × Json))

/-- The whitespace JSON.parse skips between tokens. -/
def isJsonWs (c : Char) : Bool := c == ' ' || c == '\t' || c == '\n' || c == '\r'

/-- Skip inter-token whitespace. -/
def skipWs (l : List Char) : List Char := l.dropWhile isJsonWs

/-- The character denoted by a single-character JSON string escape; none for
escapes outside the model (the \u form never occurs in the inputs in
scope). -/
def escChar : Char → Option Char
  | '"' => some '"'
  | '\\' => some '\\'
  | '/' => some '/'
  | 'b' => some '\x08'
  | 'f' => some '\x0c'
  | 'n' => some '\n'
  | 'r' => some '\r'
  | 't' => some '\t'
  | _ => none

/-- Parse the body of a JSON string after its opening quote, returning the
decoded characters and the input after the closing quote.  Raw control
characters are rejected, as JSON.parse rejects them. -/
def parseStringBody : List Char → Except (List Char) (List Char × List Char)
  | [] => .error "unterminated string".data
  | '"' :: rest => .ok ([], rest)
  | '\\' :: e :: rest =>
    match escChar e with
    | none => .error "bad escape".data
    | some c => (parseStringBody rest).map fun p => (c :: p.1, p.2)
  | c :: rest =>
    if c.toNat < 32 then .error "control character in string".data
    else (parseStringBody rest).map fun p => (c :: p.1, p.2)

/-- Parse a JSON number at the head of the input.  JSON's grammar is
followed (optional minus, no leading zero before further digits); a
fractional part or exponent falls outside the integer model and is
rejected. -/
def parseNumAt (l : List Char) : Except (List Char) (Json × List Char) :=
  let p := match l with
    | '-' :: r => (true, r)
    | _ => (false, l)
  let sp := p.2.span Char.isDigit
  if sp.1.isEmpty then .error "bad number".data
  else if 1 < sp.1.length ∧ sp.1.head? = some '0' then .error "leading zero".data
  else
    match sp.2 with
    | c :: _ =>
      if c == '.' || c == 'e' || c == 'E' then .error "non-integer number".data
      else .ok (.num (if p.1 then -(parseDigits sp.1 : Int) else (parseDigits sp.1 : Int)), sp.2)
    | [] => .ok (.num (if p.1 then -(parseDigits sp.1 : Int) else (parseDigits sp.1 : Int)), [])

/-- Parse the remaining comma-separated items of a nonempty JSON array, the
element parser being passed in; the fuel only makes the recursion
structural and is always supplied large enough. -/
def parseArrItems (pv : List Char → Except (List Char) (Json × List Char)) :
    Nat → List Char → List Json → Except (List Char) (Json × List Char)
  | 0, _, _ => .error "out of fuel".data
  | fuel + 1, l, acc =>
    match pv l with
    | .error e => .error e
    | .ok (v, rest) =>
      match skipWs rest with
      | ',' :: r2 => parseArrItems pv fuel r2 (acc ++ [v])
      | ']' :: r2 => .ok (.arr (acc ++ [v]), r2)
      | _ => .error "expected comma or end of array".data

/-- Parse the remaining key-value members of a nonempty JSON object. -/
def parseObjItems (pv : List Char → Except (List Char) (Json × List Char)) :
    Nat → List Char → List (List Char × Json) → Except (List Char) (Json × List Char)
  | 0, _, _ => .error "out of fuel".data
  | fuel + 1, l, acc =>
    match skipWs l with
    | '"' :: r =>
      match parseStringBody r with
      | .error e => .error e
      | .ok (k, r2) =>
        match skipWs r2 with
        | ':' :: r3 =>
          match pv r3 with
          | .error e => .error e
          | .ok (v, r4) =>
            match skipWs r4 with
            | ',' :: r5 => parseObjItems pv fuel r5 (acc ++ [(k, v)])
            | '\x7d' :: r5 => .ok (.obj (acc ++ [(k, v)]), r5)
            | _ => .error "expected comma or end of object".data
        | _ => .error "expected colon".data
    | _ => .error "expected object key".data

/-- Recursive-descent JSON value parser (model of the JSON.parse grammar on
the inputs in scope).  Returns the value and the unconsumed input.  The
fuel bounds the nesting depth; every nesting level consumes at least one
character, so the length-based fuel jsonParse passes never runs out. -/
def parseV : Nat → List Char → Except (List Char) (Json × List Char)
  | 0, _ => .error "out of fuel".data
  | fuel + 1, input =>
    match skipWs input with
    | [] => .error "unexpected end of input".data
    | '\x7b' :: r =>
      (match skipWs r with
       | '\x7d' :: r2 => .ok (.obj [], r2)
       | r2 => parseObjItems (parseV fuel) (r2.length + 1) r2 [])
    | '[' :: r =>
      (match skipWs r with
       | ']' :: r2 => .ok (.arr [], r2)
       | r2 => parseArrItems (parseV fuel) (r2.length + 1) r2 [])
    | '"' :: r => (parseStringBody r).map fun p => (.str p.1, p.2)
    | 't' :: r => if "rue".data.isPrefixOf r then .ok (.bool true, r.drop 3) else .error "bad literal".data
    | 'f' :: r => if "alse".data.isPrefixOf r then .ok (.bool false, r.drop 4) else .error "bad literal".data
    | 'n' :: r => if "ull".data.isPrefixOf r then .ok (.null, r.drop 3) else .error "bad literal".data
    | c :: r => if c == '-' || c.isDigit then parseNumAt (c :: r) else .error "unexpected token".data

/-- Model of JSON.parse: parse one value and require only whitespace to
follow, otherwise fail as the real parser throws. -/
def jsonParse (l : List Char) : Except (List Char) Json :=
  match parseV (l.length + 1) l with
  | .error e => .error e
  | .ok (v, rest) =>
    if (skipWs rest).isEmpty then .ok v else .error "unexpected trailing characters".data

/-- Split on newline characters, the model of String.prototype.split("\n"). -/
def splitLines : List Char → List (List Char)
  | [] => [[]]
  | c :: r =>
    if c == '\n' then [] :: splitLines r
    else
      match splitLines r with
      | [] => [[c]]
      | h :: t => (c :: h) :: t

/-- Model of parseJsonContent in src/unnamed/part_000: trim; empty input
gives no values; a whole-document parse returns the array's elements or the
single value; otherwise fall back to line-delimited parsing where blank
lines are skipped and unparseable lines contribute nothing. -/
def parseJsonContent (content : List Char) : List Json :=
  let t := trimL content
  if t.isEmpty then []
  else
    match jsonParse t with
    | .ok (Json.arr xs) => xs
    | .ok v => [v]
    | .error _ =>
      (splitLines t).foldl
        (fun acc line =>
          let tl := trimL line
          if tl.isEmpty then acc
          else
            match jsonParse tl with
            | .ok v => acc ++ [v]
            | .error _ => acc) []

/-- Effect-explicit translation of parseJsonContent: an exception that
escaped the function would surface as Except.error here.  Both JSON.parse
call sites sit inside a try/catch whose catch branch continues normally, so
every branch below ends in ok. -/
def parseJsonContentE (content : List Char) : Except (List Char) (List Json) :=
  let t := trimL content
  if t.isEmpty then .ok []
  else
    match jsonParse t with
    | .ok (Json.arr xs) => .ok xs
    | .ok v => .ok [v]
    | .error _ =>
      .ok ((splitLines t).foldl
        (fun acc line =>
          let tl := trimL line
          if tl.isEmpty then acc
          else
            match jsonParse tl with
            | .ok v => acc ++ [v]
            | .error _ => acc) [])

/-- Lowercase hexadecimal digit character. -/
def hexDigit (n : Nat) : Char :=
  if n < 10 then digitChar n
  else if n = 10 then 'a'
  else if n = 11 then 'b'
  else if n = 12 then 'c'
  else if n = 13 then 'd'
  else if n = 14 then 'e'
  else 'f'

/-- JSON.stringify escaping of one string character. -/
def escSeq (c : Char) : List Char :=
  if c == '"' then ['\\', '"']
  else if c == '\\' then ['\\', '\\']
  else if c == '\n' then ['\\', 'n']
  else if c == '\r' then ['\\', 'r']
  else if c == '\t' then ['\\', 't']
  else if c == '\x08' then ['\\', 'b']
  else if c == '\x0c' then ['\\', 'f']
  else if c.toNat < 32 then ['\\', 'u', '0', '0', hexDigit (c.toNat / 16), hexDigit (c.toNat % 16)]
  else [c]

/-- A JSON string literal as JSON.stringify renders it. -/
def quoteStr (s : List Char) : List Char := '"' :: (s.map escSeq).flatten ++ ['"']

/-- Comma-join rendered pieces. -/
def joinComma : List (List Char) → List Char
  | [] => []
  | [x] => x
  | x :: xs => x ++ ',' :: joinComma xs

/-- Decimal rendering of an integer. -/
def intChars (n : Int) : List Char :=
  if n < 0 then '-' :: decDigits n.natAbs else decDigits n.toNat

/-- Model of JSON.stringify without replacer or spacing.  The fuel only
makes the recursion structural; a value parsed from a text of length L
nests at most L deep, so the length-based fuel the pipeline passes never
runs out. -/
def stringifyF : Nat → Json → List Char
  | 0, _ => []
  | fuel + 1, j =>
    match j with
    | .null => "null".data
    | .bool true => "true".data
    | .bool false => "false".data
    | .num n => intChars n
    | .str s => quoteStr s
    | .arr xs => '[' :: joinComma (xs.map (stringifyF fuel)) ++ [']']
    | .obj fs => '\x7b' :: joinComma (fs.map fun p => quoteStr p.1 ++ ':' :: stringifyF fuel p.2) ++ ['\x7d']

/-- Model of formatDatePath in src/unnamed/part_000: UTC year, zero-padded
two-digit month and zero-padded two-digit day joined by slashes, from the
UTC calendar fields of a date. -/
def formatDatePath (year month day : Nat) : List Char :=
  decDigits year ++ '/' :: pad2 month ++ '/' :: pad2 day

/-- Substring containment, the model of String.prototype.includes. -/
def containsL (needle : List Char) : List Char → Bool
  | [] => needle.isEmpty
  | c :: rest => needle.isPrefixOf (c :: rest) || containsL needle rest

/-- Model of isFromToday in src/unnamed/part_000: the given path contains
today's formatted date fragment as a substring. -/
def isFromToday (todayFrag : List Char) (filePath : List Char) : Bool :=
  containsL todayFrag filePath

/-- The filter of the aggregation loop: a .json name whose key contains
today's fragment. -/
def isTodayJson (todayFrag : List Char) (o : RemoteObject) : Bool :=
  jsonExt.isSuffixOf o.name && isFromToday todayFrag o.name

/-- The lines one object contributes to the combined file inside the
processLogs loop: nothing if its download threw (the catch branch) or its
content trims to empty; otherwise one stringified line per normalized JSON
value. -/
def aggLines (o : RemoteObject) : List (List Char) :=
  match o.content with
  | .error _ => []
  | .ok raw =>
    if (trimL raw).isEmpty then []
    else (parseJsonContent raw).map (stringifyF (raw.length + 1))

/-- Model of processLogs in src/unnamed/part_000 as the combined-file
outcome of one run, given the UTC calendar fields of today and the bucket's
objects: none when the filtered set is empty and the function returns
before opening the write stream (the pre-existing combined file is left
untouched); otherwise the list of lines written to the freshly truncated
combined file, objects in ascending creation order. -/
def processLogs (todayY todayM todayD : Nat) (objs : List RemoteObject) :
    Option (List (List Char)) :=
  let frag := formatDatePath todayY todayM todayD
  let jsonFiles := objs.filter (isTodayJson frag)
  if jsonFiles.isEmpty then none
  else some ((sortByCreated jsonFiles).flatMap aggLines)

/-- Lexicographic order on (date, sequence) pairs: a later date wins
outright, equal dates compare by sequence. -/
def lexLe (p q : Int × Int) : Prop := p.1 < q.1 ∨ (p.1 = q.1 ∧ p.2 ≤ q.2)

/-- The (date value, sequence) pair a directory entry contributes to the
watermark, when it matches the sequence-file pattern. -/
def matchVal (file : List Char) : Option (Int × Int) :=
  (matchSeqFile file).map fun r => (dateValue r.1 r.2.1 r.2.2.1, (r.2.2.2 : Int))

/-- All (date value, sequence) pairs contributed by a directory listing. -/
def wmMatches (dir : List (List Char)) : List (Int × Int) := dir.filterMap matchVal

/-- The name contains the sequence-file pattern DD-MM-YYYY-S<digits>.json as
a substring somewhere (with arbitrary digits in the digit positions). -/
def containsSeqPattern (f : List Char) : Prop :=
  ∃ pre d1 d2 m1 m2 y1 y2 y3 y4 ds suf,
    f = pre ++ [d1, d2, '-', m1, m2, '-', y1, y2, y3, y4, '-', 'S'] ++ ds ++ jsonExt ++ suf ∧
    d1.isDigit = true ∧ d2.isDigit = true ∧ m1.isDigit = true ∧ m2.isDigit = true ∧
    y1.isDigit = true ∧ y2.isDigit = true ∧ y3.isDigit = true ∧ y4.isDigit = true ∧
    ds ≠ [] ∧ (∀ c ∈ ds, c.isDigit = true)

/-- Whether the sync loop writes a file for this object: its download
succeeded and its trimmed content is nonempty. -/
def objWritten (o : RemoteObject) : Bool :=
  match o.content with
  | .error _ => false
  | .ok raw => !(trimL raw).isEmpty

instance : DecidableEq (Except Unit (List Char)) := fun a b =>
  match a, b with
  | .ok x, .ok y => decidable_of_iff (x = y) (by simp)
  | .error x, .error y => decidable_of_iff (x = y) (by simp)
  | .ok _, .error _ => isFalse (by intro h; exact Except.noConfusion h)
  | .error _, .ok _ => isFalse (by intro h; exact Except.noConfusion h)

instance : DecidableEq RemoteObject := fun a b =>
  decidable_of_iff (a.name = b.name ∧ a.created = b.created ∧ a.content = b.content)
    (by cases a; cases b; simp)

instance : IsTotal RemoteObject createdLE :=
  ⟨fun a b => le_total a.created.timeVal b.created.timeVal⟩

instance : IsTrans RemoteObject createdLE :=
  ⟨fun _ _ _ h1 h2 => le_trans h1 h2⟩

/-- The fuel argument of decDigitsAux is irrelevant once it exceeds the
number being rendered. -/
theorem decDigitsAux_irrel (f1 : Nat) :
    ∀ f2 n, n < f1 → n < f2 → decDigitsAux f1 n = decDigitsAux f2 n := by
  induction f1 with
  | zero => intro f2 n h1 _; omega
  | succ g ih =>
    intro f2 n h1 h2
    cases f2 with
    | zero => omega
    | succ g2 =>
      simp only [decDigitsAux]
      by_cases hn : n < 10
      · simp [hn]
      · have hlt : n / 10 < n := Nat.div_lt_self (by omega) (by omega)
        rw [if_neg hn, if_neg hn, ih g2 (n / 10) (by omega) (by omega)]

/-- Unfolding equation for decDigits. -/
theorem decDigits_eq (n : Nat) :
    decDigits n = if n < 10 then [digitChar n] else decDigits (n / 10) ++ [digitChar (n % 10)] := by
  by_cases hn : n < 10
  · simp [decDigits, decDigitsAux, hn]
  · have hlt : n / 10 < n := Nat.div_lt_self (by omega) (by omega)
    simp only [decDigits, decDigitsAux, if_neg hn]
    rw [decDigitsAux_irrel n (n / 10 + 1) (n / 10) (by omega) (by omega)]
    rfl

theorem digitChar_isDigit {n : Nat} (h : n < 10) : (digitChar n).isDigit = true := by
  interval_cases n <;> decide

theorem digitVal_digitChar {n : Nat} (h : n < 10) : digitVal (digitChar n) = n := by
  interval_cases n <;> decide

theorem decDigits_isDigit (n : Nat) : ∀ c ∈ decDigits n, c.isDigit = true := by
  induction n using Nat.strong_induction_on with
  | _ n ih =>
    rw [decDigits_eq]
    by_cases h : n < 10
    · simpa [h] using digitChar_isDigit h
    · rw [if_neg h]
      intro c hc
      rcases List.mem_append.mp hc with h1 | h2
      · exact ih (n / 10) (Nat.div_lt_self (by omega) (by omega)) c h1
      · have : c = digitChar (n % 10) := by simpa using h2
        subst this
        exact digitChar_isDigit (Nat.mod_lt _ (by omega))

theorem decDigits_ne_nil (n : Nat) : decDigits n ≠ [] := by
  rw [decDigits_eq]
  by_cases h : n < 10 <;> simp [h]

theorem parseDigits_append_digit (l : List Char) (c : Char) :
    parseDigits (l ++ [c]) = 10 * parseDigits l + digitVal c := by
  simp [parseDigits, List.foldl_append]

/-- Rendering then parsing a decimal number is the identity. -/
theorem parseDigits_decDigits (n : Nat) : parseDigits (decDigits n) = n := by
  induction n using Nat.strong_induction_on with
  | _ n ih =>
    rw [decDigits_eq]
    by_cases h : n < 10
    · rw [if_pos h]
      simp [parseDigits, digitVal_digitChar h]
    · rw [if_neg h, parseDigits_append_digit,
        ih (n / 10) (Nat.div_lt_self (by omega) (by omega)),
        digitVal_digitChar (Nat.mod_lt _ (by omega))]
      omega

theorem decDigits_two {n : Nat} (h1 : 10 ≤ n) (h2 : n < 100) :
    decDigits n = [digitChar (n / 10), digitChar (n % 10)] := by
  rw [decDigits_eq, if_neg (by omega), decDigits_eq, if_pos (by omega : n / 10 < 10)]
  rfl

/-- The two-character shape of a padStart(2, "0") rendering, with the value
it parses back to. -/
theorem pad2_two {n : Nat} (h : n < 100) :
    ∃ a b, pad2 n = [a, b] ∧ a.isDigit = true ∧ b.isDigit = true ∧
      10 * digitVal a + digitVal b = n := by
  by_cases h10 : n < 10
  · refine ⟨'0', digitChar n, ?_, by decide, digitChar_isDigit h10, ?_⟩
    · simp [pad2, decDigits_eq, h10]
    · have : digitVal '0' = 0 := by decide
      rw [this, digitVal_digitChar h10]
      omega
  · refine ⟨digitChar (n / 10), digitChar (n % 10), ?_,
      digitChar_isDigit (by omega), digitChar_isDigit (Nat.mod_lt _ (by omega)), ?_⟩
    · simp [pad2, decDigits_two (by omega) h]
    · rw [digitVal_digitChar (by omega), digitVal_digitChar (Nat.mod_lt _ (by omega))]
      omega

/-- A four-digit year renders as exactly four characters. -/
theorem decDigits_four {n : Nat} (h1 : 1000 ≤ n) (h2 : n ≤ 9999) :
    ∃ a b c d, decDigits n = [a, b, c, d] := by
  rw [decDigits_eq, if_neg (by omega),
    decDigits_eq (n := n / 10), if_neg (by omega),
    decDigits_eq (n := n / 10 / 10), if_neg (by omega),
    decDigits_eq (n := n / 10 / 10 / 10), if_pos (by omega)]
  exact ⟨_, _, _, _, rfl⟩

/-- A run of digits followed by a non-digit splits exactly at the boundary
under span. -/
theorem span_digits_append (ds : List Char) (x : Char) (rest : List Char)
    (hds : ∀ c ∈ ds, c.isDigit = true) (hx : x.isDigit = false) :
    (ds ++ x :: rest).span Char.isDigit = (ds, x :: rest) := by
  induction ds with
  | nil => simp [List.span_eq_take_drop, hx]
  | cons c cs ih =>
    have hc := hds c (by simp)
    have ih2 := ih (fun c hcm => hds c (by simp [hcm]))
    simp only [List.span_eq_take_drop] at ih2 ⊢
    simp only [List.cons_append, List.takeWhile_cons, List.dropWhile_cons, hc]
    simp only [Prod.mk.injEq] at ih2 ⊢
    exact ⟨by simp [ih2.1], by simp [ih2.2]⟩

/-- The matcher succeeds on a pattern instance placed at the head of the
input, capturing the four digit groups. -/
theorem matchAt_pattern (d1 d2 m1 m2 y1 y2 y3 y4 : Char) (ds suf : List Char)
    (h1 : d1.isDigit = true) (h2 : d2.isDigit = true)
    (h3 : m1.isDigit = true) (h4 : m2.isDigit = true)
    (h5 : y1.isDigit = true) (h6 : y2.isDigit = true)
    (h7 : y3.isDigit = true) (h8 : y4.isDigit = true)
    (hne : ds ≠ []) (hdig : ∀ c ∈ ds, c.isDigit = true) :
    matchAt (d1 :: d2 :: '-' :: m1 :: m2 :: '-' :: y1 :: y2 :: y3 :: y4 :: '-' :: 'S' ::
        (ds ++ jsonExt ++ suf)) =
      some (parseDigits [d1, d2], parseDigits [m1, m2],
        parseDigits [y1, y2, y3, y4], parseDigits ds) := by
  have hspan : (ds ++ jsonExt ++ suf).span Char.isDigit = (ds, jsonExt ++ suf) := by
    have : ds ++ jsonExt ++ suf = ds ++ '.' :: ("json".data ++ suf) := by
      simp [jsonExt]
    rw [this]
    exact span_digits_append ds '.' ("json".data ++ suf) hdig (by decide)
  have hpre : jsonExt.isPrefixOf (jsonExt ++ suf) = true :=
    List.isPrefixOf_iff_prefix.mpr (List.prefix_append _ _)
  simp only [matchAt, h1, h2, h3, h4, h5, h6, h7, h8, Bool.and_self, if_pos, hspan,
    Bool.true_and, hpre]
  have hemp : ds.isEmpty = false := by simp [List.isEmpty_iff, hne]
  simp [hemp]

/-- Parsing a two-character padded rendering recovers the value. -/
theorem parseDigits_pair (a b : Char) : parseDigits [a, b] = 10 * digitVal a + digitVal b := by
  simp [parseDigits]

/-- A filename written by the sync pipeline parses back to exactly the
object's calendar fields and its group index. -/
theorem matchSeqFile_seqFileName (i : Instant) (hv : i.valid) (n : Nat) :
    matchSeqFile (seqFileName (formatDate i) n) = some (i.day, i.month, i.year, n) := by
  obtain ⟨hm1, hm12, hd1, hd31, hy1, hy2, hms⟩ := hv
  obtain ⟨a, b, hab, ha, hb, hvab⟩ := pad2_two (show i.day < 100 by omega)
  obtain ⟨c, d, hcd, hc, hd, hvcd⟩ := pad2_two (show i.month < 100 by omega)
  obtain ⟨e, f, g, h, hefgh⟩ := decDigits_four hy1 hy2
  have he : e.isDigit = true := decDigits_isDigit i.year e (by rw [hefgh]; simp)
  have hf : f.isDigit = true := decDigits_isDigit i.year f (by rw [hefgh]; simp)
  have hg : g.isDigit = true := decDigits_isDigit i.year g (by rw [hefgh]; simp)
  have hh : h.isDigit = true := decDigits_isDigit i.year h (by rw [hefgh]; simp)
  have hshape : seqFileName (formatDate i) n =
      a :: b :: '-' :: c :: d :: '-' :: e :: f :: g :: h :: '-' :: 'S' ::
        (decDigits n ++ jsonExt ++ []) := by
    simp [seqFileName, formatDate, hab, hcd, hefgh]
  have hmatch := matchAt_pattern a b c d e f g h (decDigits n) [] ha hb hc hd he hf hg hh
    (decDigits_ne_nil n) (decDigits_isDigit n)
  have hsuf : jsonExt.isSuffixOf (seqFileName (formatDate i) n) = true := by
    apply List.isSuffixOf_iff_suffix.mpr
    refine ⟨formatDate i ++ '-' :: 'S' :: decDigits n, ?_⟩
    simp [seqFileName]
  rw [matchSeqFile, if_pos hsuf, hshape]
  show firstMatch (a :: (b :: '-' :: c :: d :: '-' :: e :: f :: g :: h :: '-' :: 'S' ::
    (decDigits n ++ jsonExt ++ []))) = _
  rw [firstMatch, hmatch]
  have hyear : parseDigits [e, f, g, h] = i.year := by
    rw [← hefgh, parseDigits_decDigits]
  rw [parseDigits_pair, parseDigits_pair]
  simp [hvab, hvcd, hyear, parseDigits_decDigits]

/-- If the pattern matches at some position, the left-to-right scan finds a
match (possibly an earlier one). -/
theorem firstMatch_isSome_of_matchAt {l : List Char} {r : Nat × Nat × Nat × Nat}
    (h : matchAt l = some r) : ∀ pre, (firstMatch (pre ++ l)).isSome = true := by
  intro pre
  induction pre with
  | nil =>
    cases l with
    | nil => simp [matchAt] at h
    | cons c rest => simp [firstMatch, h]
  | cons c cs ih =>
    show (firstMatch (c :: (cs ++ l))).isSome = true
    cases hm : matchAt (c :: (cs ++ l)) with
    | some r2 => simp [firstMatch, hm]
    | none => simpa [firstMatch, hm] using ih

theorem lexLe_refl (p : Int × Int) : lexLe p p := Or.inr ⟨rfl, le_refl _⟩

theorem lexLe_trans {p q r : Int × Int} (h1 : lexLe p q) (h2 : lexLe q r) : lexLe p r := by
  rcases h1 with h1 | ⟨h1a, h1b⟩ <;> rcases h2 with h2 | ⟨h2a, h2b⟩
  · exact Or.inl (lt_trans h1 h2)
  · exact Or.inl (h2a ▸ h1)
  · exact Or.inl (h1a ▸ h2)
  · exact Or.inr ⟨h1a.trans h2a, le_trans h1b h2b⟩

/-- Fold invariant of the watermark loop from a resolved state: the result
is the lexicographic maximum of the starting pair and all contributed
pairs, and is one of them. -/
theorem wmFold_some (fs : List (List Char)) :
    ∀ d s : Int, ∃ d2 s2 : Int, fs.foldl wmStep (some d, s) = (some d2, s2) ∧
      lexLe (d, s) (d2, s2) ∧ (∀ q ∈ wmMatches fs, lexLe q (d2, s2)) ∧
      ((d2, s2) = (d, s) ∨ (d2, s2) ∈ wmMatches fs) := by
  induction fs with
  | nil =>
    intro d s
    exact ⟨d, s, rfl, lexLe_refl _, by simp [wmMatches], Or.inl rfl⟩
  | cons f fs ih =>
    intro d s
    rw [List.foldl_cons]
    cases hm : matchSeqFile f with
    | none =>
      have hv : matchVal f = none := by simp [matchVal, hm]
      have hcons : wmMatches (f :: fs) = wmMatches fs := by
        simp [wmMatches, List.filterMap_cons, hv]
      have hstep : wmStep (some d, s) f = (some d, s) := by simp [wmStep, hm]
      rw [hstep]
      obtain ⟨d2, s2, h1, h2, h3, h4⟩ := ih d s
      exact ⟨d2, s2, h1, h2, hcons ▸ h3, hcons ▸ h4⟩
    | some r =>
      obtain ⟨day, month, year, seq⟩ := r
      have hv : matchVal f = some (dateValue day month year, (seq : Int)) := by
        simp [matchVal, hm]
      have hmm : wmMatches (f :: fs) = (dateValue day month year, (seq : Int)) :: wmMatches fs := by
        simp [wmMatches, List.filterMap_cons, hv]
      by_cases hlt : d < dateValue day month year
      · have hstep : wmStep (some d, s) f = (some (dateValue day month year), (seq : Int)) := by
          simp [wmStep, hm, hlt]
        rw [hstep]
        obtain ⟨d2, s2, h1, h2, h3, h4⟩ := ih (dateValue day month year) (seq : Int)
        refine ⟨d2, s2, h1, lexLe_trans (Or.inl hlt) h2, ?_, ?_⟩
        · rw [hmm]
          intro q hq
          rcases List.mem_cons.mp hq with hq | hq
          · exact hq ▸ h2
          · exact h3 q hq
        · rw [hmm]
          rcases h4 with h4 | h4
          · exact Or.inr (by rw [h4]; exact List.mem_cons_self _ _)
          · exact Or.inr (List.mem_cons_of_mem _ h4)
      · by_cases heq : dateValue day month year = d ∧ s < (seq : Int)
        · have hstep : wmStep (some d, s) f = (some d, (seq : Int)) := by
            simp [wmStep, hm, hlt, heq]
          rw [hstep]
          obtain ⟨d2, s2, h1, h2, h3, h4⟩ := ih d (seq : Int)
          refine ⟨d2, s2, h1,
            lexLe_trans (q := (d, (seq : Int))) (Or.inr ⟨rfl, le_of_lt heq.2⟩) h2, ?_, ?_⟩
          · rw [hmm]
            intro q hq
            rcases List.mem_cons.mp hq with hq | hq
            · subst hq
              rw [heq.1]
              exact h2
            · exact h3 q hq
          · rw [hmm]
            rcases h4 with h4 | h4
            · exact Or.inr (by rw [h4, ← heq.1]; exact List.mem_cons_self _ _)
            · exact Or.inr (List.mem_cons_of_mem _ h4)
        · have hstep : wmStep (some d, s) f = (some d, s) := by
            simp only [wmStep, hm]
            rw [if_neg hlt, if_neg heq]
          rw [hstep]
          obtain ⟨d2, s2, h1, h2, h3, h4⟩ := ih d s
          have hqle : lexLe (dateValue day month year, (seq : Int)) (d, s) := by
            rcases lt_or_eq_of_le (le_of_not_lt hlt) with hq | hq
            · exact Or.inl hq
            · refine Or.inr ⟨hq, ?_⟩
              by_contra hcon
              exact heq ⟨hq, lt_of_not_le hcon⟩
          refine ⟨d2, s2, h1, h2, ?_, ?_⟩
          · rw [hmm]
            intro q hq
            rcases List.mem_cons.mp hq with hq | hq
            · exact hq ▸ lexLe_trans hqle h2
            · exact h3 q hq
          · rw [hmm]
            rcases h4 with h4 | h4
            · exact Or.inl h4
            · exact Or.inr (List.mem_cons_of_mem _ h4)

/-- Characterization of the full watermark fold from the initial state. -/
theorem wmFold_full (fs : List (List Char)) :
    (fs.foldl wmStep (none, -1) = (none, -1) ∧ wmMatches fs = []) ∨
    (∃ d2 s2 : Int, fs.foldl wmStep (none, -1) = (some d2, s2) ∧
      (d2, s2) ∈ wmMatches fs ∧ ∀ q ∈ wmMatches fs, lexLe q (d2, s2)) := by
  induction fs with
  | nil => exact Or.inl ⟨rfl, by simp [wmMatches]⟩
  | cons f fs ih =>
    rw [List.foldl_cons]
    cases hm : matchSeqFile f with
    | none =>
      have hv : matchVal f = none := by simp [matchVal, hm]
      have hcons : wmMatches (f :: fs) = wmMatches fs := by
        simp [wmMatches, List.filterMap_cons, hv]
      have hstep : wmStep (none, -1) f = (none, -1) := by simp [wmStep, hm]
      rw [hstep]
      rcases ih with ⟨h1, h2⟩ | ⟨d2, s2, h1, h2, h3⟩
      · exact Or.inl ⟨h1, hcons ▸ h2⟩
      · exact Or.inr ⟨d2, s2, h1, hcons ▸ h2, hcons ▸ h3⟩
    | some r =>
      obtain ⟨day, month, year, seq⟩ := r
      have hv : matchVal f = some (dateValue day month year, (seq : Int)) := by
        simp [matchVal, hm]
      have hmm : wmMatches (f :: fs) = (dateValue day month year, (seq : Int)) :: wmMatches fs := by
        simp [wmMatches, List.filterMap_cons, hv]
      have hstep : wmStep (none, -1) f = (some (dateValue day month year), (seq : Int)) := by
        simp [wmStep, hm]
      rw [hstep]
      obtain ⟨d2, s2, h1, h2, h3, h4⟩ := wmFold_some fs (dateValue day month year) (seq : Int)
      refine Or.inr ⟨d2, s2, h1, ?_, ?_⟩
      · rw [hmm]
        rcases h4 with h4 | h4
        · exact h4 ▸ List.mem_cons_self _ _
        · exact List.mem_cons_of_mem _ h4
      · rw [hmm]
        intro q hq
        rcases List.mem_cons.mp hq with hq | hq
        · exact hq ▸ h2
        · exact h3 q hq

/-- The resolver returns nothing exactly when no filename matches. -/
theorem wm_none_iff (dir : List (List Char)) :
    getLatestProcessedFile dir = none ↔ wmMatches dir = [] := by
  rcases wmFold_full dir with ⟨h1, h2⟩ | ⟨d2, s2, h1, h2, h3⟩
  · constructor
    · intro _; exact h2
    · intro _; rw [getLatestProcessedFile, h1]
  · constructor
    · intro h
      rw [getLatestProcessedFile, h1] at h
      exact absurd h (by simp)
    · intro h
      rw [h] at h2
      exact absurd h2 (List.not_mem_nil _)

/-- The resolved watermark is one of the contributed pairs, and a
lexicographic upper bound of all of them. -/
theorem wm_max {dir : List (List Char)} {p : Int × Int}
    (h : getLatestProcessedFile dir = some p) :
    p ∈ wmMatches dir ∧ ∀ q ∈ wmMatches dir, lexLe q p := by
  rcases wmFold_full dir with ⟨h1, _⟩ | ⟨d2, s2, h1, h2, h3⟩
  · rw [getLatestProcessedFile, h1] at h
    exact absurd h (by simp)
  · rw [getLatestProcessedFile, h1] at h
    have := Option.some.inj h
    subst this
    exact ⟨h2, h3⟩

/-- A matching directory entry forces a watermark at least as large as its
own pair. -/
theorem wm_ge_of_mem {dir : List (List Char)} {f : List Char} {q : Int × Int}
    (hf : f ∈ dir) (hq : matchVal f = some q) :
    ∃ p, getLatestProcessedFile dir = some p ∧ lexLe q p := by
  have hmem : q ∈ wmMatches dir := List.mem_filterMap.mpr ⟨f, hf, hq⟩
  cases hgl : getLatestProcessedFile dir with
  | none =>
    rw [wm_none_iff] at hgl
    rw [hgl] at hmem
    exact absurd hmem (List.not_mem_nil _)
  | some p => exact ⟨p, rfl, (wm_max hgl).2 q hmem⟩

/-- C2: over any sequence of directory-entry filenames,
getLatestProcessedFile returns the lexicographically maximal
(date, sequence) pair among the pairs contributed by entries matching the
sequence-file pattern (a strictly later date wins outright, an equal date
keeps the maximal sequence), and returns nothing exactly when no entry
matches. -/
theorem getLatestProcessedFile_lex_max (dir : List (List Char)) :
    (getLatestProcessedFile dir = none ↔ wmMatches dir = []) ∧
    ∀ p, getLatestProcessedFile dir = some p →
      p ∈ wmMatches dir ∧ ∀ q ∈ wmMatches dir, lexLe q p :=
  ⟨wm_none_iff dir, fun _ h => wm_max h⟩

/-- Witness for C2 at a concrete directory listing: the resolver picks the
pair with the later date, and among equal dates the larger sequence. -/
theorem getLatestProcessedFile_lex_max_witness :
    (dateValue 7 3 2024, (2 : Int)) ∈
        wmMatches ["06-03-2024-S5.json".data, "07-03-2024-S2.json".data,
          "07-03-2024-S1.json".data, "readme.txt".data] ∧
      ∀ q ∈ wmMatches ["06-03-2024-S5.json".data, "07-03-2024-S2.json".data,
          "07-03-2024-S1.json".data, "readme.txt".data],
        lexLe q (dateValue 7 3 2024, (2 : Int)) :=
  (getLatestProcessedFile_lex_max
      ["06-03-2024-S5.json".data, "07-03-2024-S2.json".data,
        "07-03-2024-S1.json".data, "readme.txt".data]).2
    (dateValue 7 3 2024, (2 : Int)) (by decide)

/-- C10: the sequence-file pattern match is unanchored: any name ending in
.json that merely contains DD-MM-YYYY-S<digits>.json as a substring
anywhere is treated as a sequence file (the match succeeds), as the
concrete name backup-07-03-2024-S3.json shows, and such an entry
contributes its embedded (date, sequence) pair to the watermark. -/
theorem matchSeqFile_unanchored (f : List Char) :
    (jsonExt.isSuffixOf f = true → containsSeqPattern f → (matchSeqFile f).isSome = true) ∧
    matchSeqFile "backup-07-03-2024-S3.json".data = some (7, 3, 2024, 3) ∧
    getLatestProcessedFile ["backup-07-03-2024-S3.json".data] =
      some (dateValue 7 3 2024, 3) := by
  refine ⟨?_, by decide, by decide⟩
  intro hsuf hpat
  obtain ⟨pre, d1, d2, m1, m2, y1, y2, y3, y4, ds, suf, heq, h1, h2, h3, h4, h5, h6, h7, h8,
    hne, hdig⟩ := hpat
  have hm := matchAt_pattern d1 d2 m1 m2 y1 y2 y3 y4 ds suf h1 h2 h3 h4 h5 h6 h7 h8 hne hdig
  rw [matchSeqFile, if_pos hsuf]
  have hshape : f = pre ++ (d1 :: d2 :: '-' :: m1 :: m2 :: '-' :: y1 :: y2 :: y3 :: y4 ::
      '-' :: 'S' :: (ds ++ jsonExt ++ suf)) := by
    rw [heq]
    simp
  rw [hshape]
  exact firstMatch_isSome_of_matchAt hm pre

/-- Witness for C10 at the concrete name from the claim. -/
theorem matchSeqFile_unanchored_witness :
    (matchSeqFile "backup-07-03-2024-S3.json".data).isSome = true :=
  (matchSeqFile_unanchored "backup-07-03-2024-S3.json".data).1 (by decide)
    ⟨"backup-".data, '0', '7', '0', '3', '2', '0', '2', '4', ['3'], [],
      by decide, by decide, by decide, by decide, by decide, by decide, by decide,
      by decide, by decide, by decide, by decide⟩

/-- Every write of a sync run originates from an object that survived the
watermark filter: its name is the object's date-and-index sequence
filename and its content the object's trimmed download. -/
theorem writes_from_filtered {dir : List (List Char)} {objs : List RemoteObject}
    {w : List Char × List Char} (hw : w ∈ downloadAndSaveJSON dir objs) :
    ∃ u i raw, u ∈ objs ∧ isNewRemoteObject (getLatestProcessedFile dir) u = true ∧
      u.content = .ok raw ∧ (trimL raw).isEmpty = false ∧
      w = (seqFileName (formatDate u.created) i, trimL raw) := by
  unfold downloadAndSaveJSON at hw
  rw [List.mem_flatMap] at hw
  obtain ⟨p, hp, hw⟩ := hw
  unfold groupsOf at hp
  rw [List.mem_map] at hp
  obtain ⟨k, hk, hpk⟩ := hp
  subst hpk
  unfold processGroup at hw
  rw [List.mem_filterMap] at hw
  obtain ⟨q, hq, hqw⟩ := hw
  obtain ⟨i, o⟩ := q
  obtain ⟨hilen, hoeq⟩ := List.mem_enum hq
  have homem : o ∈ (sortByCreated (objs.filter (isNewRemoteObject (getLatestProcessedFile dir)))).filter
      (fun u => decide (formatDate u.created = k)) := by
    rw [hoeq]
    exact List.getElem_mem _
  rw [List.mem_filter] at homem
  obtain ⟨hsort, hdate⟩ := homem
  have hdate2 : formatDate o.created = k := of_decide_eq_true hdate
  have hmem2 : o ∈ objs.filter (isNewRemoteObject (getLatestProcessedFile dir)) :=
    ((List.perm_insertionSort createdLE _).mem_iff).mp hsort
  rw [List.mem_filter] at hmem2
  cases hco : o.content with
  | error e =>
    rw [hco] at hqw
    exact absurd hqw (by simp)
  | ok raw =>
    rw [hco] at hqw
    dsimp only at hqw
    by_cases hemp : (trimL raw).isEmpty
    · rw [if_pos hemp] at hqw
      exact absurd hqw (by simp)
    · rw [if_neg hemp] at hqw
      refine ⟨o, i, raw, hmem2.1, hmem2.2, hco, Bool.eq_false_iff.mpr hemp, ?_⟩
      rw [← hdate2] at hqw
      exact (Option.some.inj hqw).symm

/-- C1: the incremental sync pipeline never processes (re-downloads or
re-creates a file for) an object whose creation timestamp is at or before
the resolved watermark date: such objects fail the filter; an object passes
the filter only when its creation timestamp is strictly later than the
watermark date; when no watermark exists every .json-named object passes;
and every write a run performs originates from an object that passed the
filter. -/
theorem incremental_watermark_cut (dir : List (List Char)) (objs : List RemoteObject)
    (o : RemoteObject) :
    (∀ d s, getLatestProcessedFile dir = some (d, s) →
      o.created.timeVal ≤ 86400000 * d →
      isNewRemoteObject (getLatestProcessedFile dir) o = false) ∧
    (∀ d s, getLatestProcessedFile dir = some (d, s) →
      isNewRemoteObject (getLatestProcessedFile dir) o = true →
      86400000 * d < o.created.timeVal) ∧
    (getLatestProcessedFile dir = none → jsonExt.isSuffixOf o.name = true →
      isNewRemoteObject (getLatestProcessedFile dir) o = true) ∧
    (∀ w ∈ downloadAndSaveJSON dir objs, ∃ u i raw, u ∈ objs ∧
      isNewRemoteObject (getLatestProcessedFile dir) u = true ∧
      u.content = .ok raw ∧ w = (seqFileName (formatDate u.created) i, trimL raw)) := by
  refine ⟨?_, ?_, ?_, ?_⟩
  · intro d s h hle
    rw [h]
    unfold isNewRemoteObject
    have hdec : decide (86400000 * d < o.created.timeVal) = false := by
      simp [not_lt.mpr hle]
    simp [hdec]
  · intro d s h htrue
    rw [h] at htrue
    unfold isNewRemoteObject at htrue
    rw [Bool.and_eq_true] at htrue
    simpa using htrue.2
  · intro h hsuf
    rw [h]
    unfold isNewRemoteObject
    simp [hsuf]
  · intro w hw
    obtain ⟨u, i, raw, h1, h2, h3, _, h5⟩ := writes_from_filtered hw
    exact ⟨u, i, raw, h1, h2, h3, h5⟩

/-- Witness for C1: with watermark (6 March 2024, S1), an object created
during 5 March 2024 is filtered out. -/
theorem incremental_watermark_cut_witness :
    isNewRemoteObject (getLatestProcessedFile ["06-03-2024-S1.json".data])
      ⟨"a.json".data, ⟨2024, 3, 5, 7000⟩, Except.ok "x".data⟩ = false :=
  (incremental_watermark_cut ["06-03-2024-S1.json".data] []
      ⟨"a.json".data, ⟨2024, 3, 5, 7000⟩, Except.ok "x".data⟩).1
    (dateValue 6 3 2024) 1 (by decide) (by decide)

/-- C4 counterexample: the sync pipeline does overwrite an existing local
sequence file.  With local state 07-03-2024-S0.json (watermark 7 March
2024, S0), an object created at 01:00 on 7 March 2024 passes the filter
(its timestamp is after midnight), is grouped under 07-03-2024, receives
index 0, and is written to 07-03-2024-S0.json, a name already present in
the directory. -/
theorem overwrite_existing_file_cex :
    downloadAndSaveJSON ["07-03-2024-S0.json".data]
        [⟨"a.json".data, ⟨2024, 3, 7, 3600000⟩, Except.ok "x".data⟩] =
      [("07-03-2024-S0.json".data, "x".data)] ∧
    "07-03-2024-S0.json".data ∈ ["07-03-2024-S0.json".data] := by
  exact ⟨by decide, by decide⟩

/-- C4 amended: a sync run can overwrite an existing file only when that
file parses as a sequence file whose embedded date equals the watermark
date; every clash between a written name and a pre-existing directory
entry happens on the watermark date itself, so files for any other date
are never overwritten. -/
theorem overwrite_only_on_watermark_date (dir : List (List Char)) (objs : List RemoteObject)
    (hv : ∀ o ∈ objs, o.created.valid) :
    ∀ w ∈ downloadAndSaveJSON dir objs, w.1 ∈ dir →
      ∃ d s day month year seq, getLatestProcessedFile dir = some (d, s) ∧
        matchSeqFile w.1 = some (day, month, year, seq) ∧ dateValue day month year = d := by
  intro w hw hmem
  obtain ⟨u, i, raw, hu, hnew, hraw, hne, hweq⟩ := writes_from_filtered hw
  have huv := hv u hu
  have hw1 : w.1 = seqFileName (formatDate u.created) i := by rw [hweq]
  have hms : matchSeqFile w.1 = some (u.created.day, u.created.month, u.created.year, i) := by
    rw [hw1]
    exact matchSeqFile_seqFileName u.created huv i
  have hmv : matchVal w.1 =
      some (dateValue u.created.day u.created.month u.created.year, (i : Int)) := by
    simp [matchVal, hms]
  obtain ⟨p, hp, hle⟩ := wm_ge_of_mem hmem hmv
  obtain ⟨d, s⟩ := p
  have hlt : 86400000 * d < u.created.timeVal := by
    rw [hp] at hnew
    unfold isNewRemoteObject at hnew
    rw [Bool.and_eq_true] at hnew
    simpa using hnew.2
  have hmslt : u.created.ms < 86400000 := huv.2.2.2.2.2.2
  have hub : u.created.timeVal <
      86400000 * (dateValue u.created.day u.created.month u.created.year + 1) := by
    unfold Instant.timeVal
    have : ((u.created.ms : Int)) < 86400000 := by exact_mod_cast hmslt
    linarith
  have hdlt : d < dateValue u.created.day u.created.month u.created.year + 1 := by
    have hmul : 86400000 * d <
        86400000 * (dateValue u.created.day u.created.month u.created.year + 1) :=
      lt_trans hlt hub
    exact lt_of_mul_lt_mul_left hmul (by norm_num)
  have hge : dateValue u.created.day u.created.month u.created.year ≤ d := by
    rcases hle with h | ⟨h, _⟩
    · exact le_of_lt h
    · exact le_of_eq h
  exact ⟨d, s, u.created.day, u.created.month, u.created.year, i, hp, hms, by omega⟩

/-- Witness for C4 amended at the concrete overwriting run: the overwritten
file's embedded date is exactly the watermark date. -/
theorem overwrite_only_on_watermark_date_witness :
    ∃ d s day month year seq,
      getLatestProcessedFile ["07-03-2024-S0.json".data] = some (d, s) ∧
        matchSeqFile ("07-03-2024-S0.json".data, "x".data).1 =
          some (day, month, year, seq) ∧
        dateValue day month year = d :=
  overwrite_only_on_watermark_date ["07-03-2024-S0.json".data]
    [⟨"a.json".data, ⟨2024, 3, 7, 3600000⟩, Except.ok "x".data⟩]
    (by intro o ho
        simp only [List.mem_singleton] at ho
        subst ho
        unfold Instant.valid
        decide)
    ("07-03-2024-S0.json".data, "x".data) (by decide) (by decide)

/-- C3 counterexample: when an object of a date group is skipped, the
sequence numbers embedded in the written filenames neither start at 0 nor
increment without gaps.  Two objects share the date 7 March 2024; the
first (earlier) one has whitespace-only content and is skipped, yet it
consumes index 0, so the only file written is 07-03-2024-S1.json. -/
theorem sequence_gap_cex :
    (downloadAndSaveJSON []
        [⟨"a.json".data, ⟨2024, 3, 7, 1000⟩, Except.ok "  ".data⟩,
         ⟨"b.json".data, ⟨2024, 3, 7, 2000⟩, Except.ok "good".data⟩]).map Prod.fst =
      ["07-03-2024-S1.json".data] := by decide

/-- C3 amended: within one run, every date group is processed in ascending
creation-time order and each object consumes the sequence index equal to
its 0-based position in the group; the filenames actually written carry
those positions (so a skipped object leaves a gap), and when no object of
the group is skipped the written sequence numbers are exactly 0, 1, ...,
with no gaps. -/
theorem sequence_numbers_by_position (dir : List (List Char)) (objs : List RemoteObject) :
    ∀ k g, (k, g) ∈ groupsOf
        (sortByCreated (objs.filter (isNewRemoteObject (getLatestProcessedFile dir)))) →
      List.Sorted createdLE g ∧
      (processGroup k g).map Prod.fst =
        g.enum.filterMap (fun p => if objWritten p.2 then some (seqFileName k p.1) else none) ∧
      ((∀ o ∈ g, objWritten o = true) →
        (processGroup k g).map Prod.fst = (List.range g.length).map (seqFileName k)) := by
  intro k g hkg
  unfold groupsOf at hkg
  rw [List.mem_map] at hkg
  obtain ⟨k2, hk2, heq⟩ := hkg
  rw [Prod.mk.injEq] at heq
  obtain ⟨hkk, hgg⟩ := heq
  have hsorted : List.Sorted createdLE g := by
    rw [← hgg]
    exact List.Pairwise.filter _
      (List.sorted_insertionSort createdLE
        (objs.filter (isNewRemoteObject (getLatestProcessedFile dir))))
  have hpos : (processGroup k g).map Prod.fst =
      g.enum.filterMap (fun p => if objWritten p.2 then some (seqFileName k p.1) else none) := by
    unfold processGroup
    rw [List.map_filterMap]
    apply List.filterMap_congr
    intro x _
    obtain ⟨i, o⟩ := x
    cases hco : o.content with
    | error e => simp [objWritten, hco]
    | ok raw =>
      by_cases hemp : (trimL raw).isEmpty
      · simp [objWritten, hco, hemp]
      · simp [objWritten, hco, hemp]
  refine ⟨hsorted, hpos, ?_⟩
  intro hall
  rw [hpos]
  have hcongr : ∀ p ∈ g.enum,
      (if objWritten p.2 then some (seqFileName k p.1) else none) =
        some (seqFileName k p.1) := by
    intro p hp
    obtain ⟨i, o⟩ := p
    have hmem : o ∈ g := by
      obtain ⟨_, ho⟩ := List.mem_enum hp
      rw [ho]
      exact List.getElem_mem _
    rw [hall o hmem]
    simp
  rw [List.filterMap_congr hcongr]
  have hfm : ∀ l : List (Nat × RemoteObject),
      l.filterMap (fun p => some (seqFileName k p.1)) = l.map (fun p => seqFileName k p.1) := by
    intro l
    induction l with
    | nil => rfl
    | cons a t ih => simp only [List.filterMap_cons, List.map_cons, ih]
  rw [hfm, ← List.enum_map_fst g, List.map_map]
  rfl

/-- Witness for C3 amended: with two downloadable same-date objects and no
watermark, the group is the sorted pair and the written filenames are the
S0 and S1 names in order. -/
theorem sequence_numbers_by_position_witness :
    (processGroup "07-03-2024".data
        [⟨"a.json".data, ⟨2024, 3, 7, 1000⟩, Except.ok "one".data⟩,
         ⟨"b.json".data, ⟨2024, 3, 7, 2000⟩, Except.ok "two".data⟩]).map Prod.fst =
      (List.range 2).map (seqFileName "07-03-2024".data) :=
  (sequence_numbers_by_position []
      [⟨"a.json".data, ⟨2024, 3, 7, 1000⟩, Except.ok "one".data⟩,
       ⟨"b.json".data, ⟨2024, 3, 7, 2000⟩, Except.ok "two".data⟩]
      "07-03-2024".data
      [⟨"a.json".data, ⟨2024, 3, 7, 1000⟩, Except.ok "one".data⟩,
       ⟨"b.json".data, ⟨2024, 3, 7, 2000⟩, Except.ok "two".data⟩]
      (by decide)).2.2 (by decide)

/-- C9: the content normalizer is total and never throws: the
effect-explicit translation, in which an exception escaping the function
would appear as an error value, always returns ok with exactly the value
of the pure normalizer, because both JSON.parse call sites are guarded by
a catch branch. -/
theorem parseJsonContent_never_throws (content : List Char) :
    parseJsonContentE content = Except.ok (parseJsonContent content) := by
  unfold parseJsonContentE parseJsonContent
  by_cases h : (trimL content).isEmpty
  · simp [h]
  · simp only [h, Bool.false_eq_true, if_false]
    cases hj : jsonParse (trimL content) with
    | ok v => cases v <;> simp
    | error e => simp

/-- C5: behaviour of the content normalizer: a whole-document JSON array
yields its elements; line-delimited input yields each parseable line's
value; an unparseable line contributes nothing; empty input (and any
input trimming to empty) yields the empty sequence; a whole-document parse
of a non-array value yields that single value. -/
theorem parseJsonContent_cases :
    parseJsonContent "[\x7b\"a\":1\x7d,\x7b\"a\":2\x7d]".data =
      [Json.obj [("a".data, Json.num 1)], Json.obj [("a".data, Json.num 2)]] ∧
    parseJsonContent "\x7b\"a\":1\x7d\n\x7b\"a\":2\x7d".data =
      [Json.obj [("a".data, Json.num 1)], Json.obj [("a".data, Json.num 2)]] ∧
    parseJsonContent "\x7b\"a\":1\x7d\nnot-json\n\x7b\"a\":2\x7d".data =
      [Json.obj [("a".data, Json.num 1)], Json.obj [("a".data, Json.num 2)]] ∧
    parseJsonContent "".data = [] ∧
    (∀ s, (trimL s).isEmpty = true → parseJsonContent s = []) ∧
    (∀ s xs, jsonParse (trimL s) = .ok (Json.arr xs) → parseJsonContent s = xs) ∧
    (∀ s v, jsonParse (trimL s) = .ok v → (∀ xs, v ≠ Json.arr xs) →
      parseJsonContent s = [v]) := by
  refine ⟨rfl, rfl, rfl, rfl, ?_, ?_, ?_⟩
  · intro s h
    simp [parseJsonContent, h]
  · intro s xs h
    by_cases hemp : (trimL s).isEmpty
    · exfalso
      rw [List.isEmpty_iff.mp hemp] at h
      rw [show jsonParse [] = Except.error "unexpected end of input".data from rfl] at h
      exact Except.noConfusion h
    · have hf : (trimL s).isEmpty = false := Bool.eq_false_iff.mpr hemp
      simp [parseJsonContent, hf, h]
  · intro s v h hv
    by_cases hemp : (trimL s).isEmpty
    · exfalso
      rw [List.isEmpty_iff.mp hemp] at h
      rw [show jsonParse [] = Except.error "unexpected end of input".data from rfl] at h
      exact Except.noConfusion h
    · have hf : (trimL s).isEmpty = false := Bool.eq_false_iff.mpr hemp
      cases v with
      | arr l => exact absurd rfl (hv l)
      | null => simp [parseJsonContent, hf, h]
      | bool b => simp [parseJsonContent, hf, h]
      | num n => simp [parseJsonContent, hf, h]
      | str t => simp [parseJsonContent, hf, h]
      | obj fs => simp [parseJsonContent, hf, h]

/-- Witness for C5: the whole-document non-array branch applied to a
concrete object document yields that single value. -/
theorem parseJsonContent_cases_witness :
    parseJsonContent "\x7b\"a\":1\x7d".data = [Json.obj [("a".data, Json.num 1)]] :=
  parseJsonContent_cases.2.2.2.2.2.2 "\x7b\"a\":1\x7d".data
    (Json.obj [("a".data, Json.num 1)]) rfl
    (fun _ h => Json.noConfusion h)

/-- C7: when the filter over the listed objects yields nothing, processLogs
returns before opening the combined output file, leaving any pre-existing
combined file untouched (the none outcome of the model). -/
theorem processLogs_empty_untouched (todayY todayM todayD : Nat) (objs : List RemoteObject)
    (h : objs.filter (isTodayJson (formatDatePath todayY todayM todayD)) = []) :
    processLogs todayY todayM todayD objs = none := by
  unfold processLogs
  simp [h]

/-- Witness for C7: an object from yesterday's path never matches, so the
run touches nothing. -/
theorem processLogs_empty_untouched_witness :
    processLogs 2024 3 7
      [⟨"logs/2024/03/06/a.json".data, ⟨2024, 3, 6, 0⟩, Except.ok "x".data⟩] = none :=
  processLogs_empty_untouched 2024 3 7
    [⟨"logs/2024/03/06/a.json".data, ⟨2024, 3, 6, 0⟩, Except.ok "x".data⟩] (by decide)

/-- C8: the path-fragment formatter renders the UTC year followed by the
zero-padded two-digit month and day joined by slashes (verified by the
padding laws of pad2 and the concrete example 2024/03/07), and the
aggregation filter selects an object exactly when its name ends in .json
and its storage key contains today's fragment as a substring. -/
theorem todays_fragment_selection (m : Nat) (ty tm td : Nat) (o : RemoteObject)
    (objs : List RemoteObject) :
    (m < 10 → pad2 m = ['0', digitChar m]) ∧
    (10 ≤ m → m < 100 → pad2 m = [digitChar (m / 10), digitChar (m % 10)]) ∧
    formatDatePath 2024 3 7 = "2024/03/07".data ∧
    (o ∈ objs.filter (isTodayJson (formatDatePath ty tm td)) ↔
      o ∈ objs ∧ jsonExt.isSuffixOf o.name = true ∧
        isFromToday (formatDatePath ty tm td) o.name = true) := by
  refine ⟨?_, ?_, by decide, ?_⟩
  · intro hm
    simp [pad2, decDigits_eq, hm]
  · intro h1 h2
    simp [pad2, decDigits_two h1 h2]
  · rw [List.mem_filter]
    unfold isTodayJson
    rw [Bool.and_eq_true]

/-- Witness for C8: month 3 pads to 03, and a concrete object with a
matching key is selected. -/
theorem todays_fragment_selection_witness :
    pad2 3 = ['0', digitChar 3] ∧
    (⟨"logs/2024/03/07/a.json".data, ⟨2024, 3, 7, 0⟩, Except.ok "x".data⟩ ∈
        ([⟨"logs/2024/03/07/a.json".data, ⟨2024, 3, 7, 0⟩, Except.ok "x".data⟩] :
          List RemoteObject).filter (isTodayJson (formatDatePath 2024 3 7)) ↔
      (⟨"logs/2024/03/07/a.json".data, ⟨2024, 3, 7, 0⟩, Except.ok "x".data⟩ : RemoteObject) ∈
          ([⟨"logs/2024/03/07/a.json".data, ⟨2024, 3, 7, 0⟩, Except.ok "x".data⟩] :
            List RemoteObject) ∧
        jsonExt.isSuffixOf "logs/2024/03/07/a.json".data = true ∧
        isFromToday (formatDatePath 2024 3 7) "logs/2024/03/07/a.json".data = true) :=
  ⟨(todays_fragment_selection 3 2024 3 7
        ⟨"logs/2024/03/07/a.json".data, ⟨2024, 3, 7, 0⟩, Except.ok "x".data⟩ []).1 (by decide),
   (todays_fragment_selection 3 2024 3 7
        ⟨"logs/2024/03/07/a.json".data, ⟨2024, 3, 7, 0⟩, Except.ok "x".data⟩
        [⟨"logs/2024/03/07/a.json".data, ⟨2024, 3, 7, 0⟩, Except.ok "x".data⟩]).2.2.2⟩

/-- C6: given two matching objects, one a single JSON document and one
line-delimited, created at t1 earlier than t2, the aggregation run writes
exactly three lines in creation order: the first object's value, then the
second object's two values. -/
theorem aggregation_three_lines (t1 t2 : Instant) (h : t1.timeVal < t2.timeVal) :
    processLogs 2024 3 7
      [⟨"logs/2024/03/07/a.json".data, t1, Except.ok "\x7b\"x\":1\x7d".data⟩,
       ⟨"logs/2024/03/07/b.json".data, t2, Except.ok "\x7b\"y\":2\x7d\n\x7b\"y\":3\x7d".data⟩] =
      some ["\x7b\"x\":1\x7d".data, "\x7b\"y\":2\x7d".data, "\x7b\"y\":3\x7d".data] := by
  have hle : createdLE
      ⟨"logs/2024/03/07/a.json".data, t1, Except.ok "\x7b\"x\":1\x7d".data⟩
      ⟨"logs/2024/03/07/b.json".data, t2, Except.ok "\x7b\"y\":2\x7d\n\x7b\"y\":3\x7d".data⟩ :=
    le_of_lt h
  have hsort : sortByCreated
      [⟨"logs/2024/03/07/a.json".data, t1, Except.ok "\x7b\"x\":1\x7d".data⟩,
       ⟨"logs/2024/03/07/b.json".data, t2, Except.ok "\x7b\"y\":2\x7d\n\x7b\"y\":3\x7d".data⟩] =
      [⟨"logs/2024/03/07/a.json".data, t1, Except.ok "\x7b\"x\":1\x7d".data⟩,
       ⟨"logs/2024/03/07/b.json".data, t2, Except.ok "\x7b\"y\":2\x7d\n\x7b\"y\":3\x7d".data⟩] := by
    unfold sortByCreated
    simp [List.insertionSort, List.orderedInsert, hle]
  have hstep : processLogs 2024 3 7
      [⟨"logs/2024/03/07/a.json".data, t1, Except.ok "\x7b\"x\":1\x7d".data⟩,
       ⟨"logs/2024/03/07/b.json".data, t2, Except.ok "\x7b\"y\":2\x7d\n\x7b\"y\":3\x7d".data⟩] =
      some ((sortByCreated
        [⟨"logs/2024/03/07/a.json".data, t1, Except.ok "\x7b\"x\":1\x7d".data⟩,
         ⟨"logs/2024/03/07/b.json".data, t2,
           Except.ok "\x7b\"y\":2\x7d\n\x7b\"y\":3\x7d".data⟩]).flatMap aggLines) := rfl
  rw [hstep, hsort]
  rfl

/-- Witness for C6 at concrete timestamps one second apart. -/
theorem aggregation_three_lines_witness :
    processLogs 2024 3 7
      [⟨"logs/2024/03/07/a.json".data, ⟨2024, 3, 7, 1000⟩,
         Except.ok "\x7b\"x\":1\x7d".data⟩,
       ⟨"logs/2024/03/07/b.json".data, ⟨2024, 3, 7, 2000⟩,
         Except.ok "\x7b\"y\":2\x7d\n\x7b\"y\":3\x7d".data⟩] =
      some ["\x7b\"x\":1\x7d".data, "\x7b\"y\":2\x7d".data, "\x7b\"y\":3\x7d".data] :=
  aggregation_three_lines ⟨2024, 3, 7, 1000⟩ ⟨2024, 3, 7, 2000⟩ (by decide)
